import Mathlib

/-!
Verification of the punctuation-restoration data pipeline.

Shallow embedding of the repository sources:
  - `src/parsers/tsv_parser.py` (label determination, TSV to CONLL conversion),
  - `src/split_long_examples.py` (sequence chunker),
  - `src/converters/json_converter.py` and `src/parsers/parse_json2.py`
    (the two JSON to TSV converters),
  - `src/converters/json_converter.py` document routing,
  - `src/converters/pandas_converter.py` (dataset splitter),
  - `src/train_ner_punctuation.py` (sentence-level label filtering),
  - `src/enums.py` (label alphabet).

Python strings are embedded as `List Char`; Python slices `s[:-k]` and
`s[-k:]` become `List.take (length - k)` and `List.drop (length - k)`,
which agree with Python on short strings because `Nat` subtraction
truncates at zero exactly like Python clamps slice bounds.  External
collaborators (the subword tokenizer, the seeded PRNG) are modelled as
opaque function parameters, as the spec directs.
-/

namespace PunctRestore

/-! ## Label alphabet, from `src/enums.py` (class `Label`) -/

/-- The nine label surface forms, in enum declaration order: value list of
`Label.list()`. -/
def labelList : List (List Char) :=
  [['B'], [':'], [';'], [','], ['.'], ['-'], ['.', '.', '.'], ['?'], ['!']]

/-- The eight punctuation labels, `Label.only_punctuations()` (everything
except `NO_PUNCTUATION`). -/
def onlyPunctuations : List (List Char) :=
  [[':'], [';'], [','], ['.'], ['-'], ['.', '.', '.'], ['?'], ['!']]

/-- The single-character punctuation labels of the alphabet. -/
def singleCharLabels : List (List Char) :=
  [[':'], [';'], [','], ['.'], ['-'], ['?'], ['!']]

/-! ## Label determination, from `src/parsers/tsv_parser.py`,
`TsvParser._determine_label`.

The Python function returns a label string and, on the fallback branch,
logs an error; the model returns the label together with a Boolean that
is `true` exactly when the error branch was taken.  The function is
total: it never raises. -/

/-- Embedding of `TsvParser._determine_label`.  `inTok` is `in_token`,
`expTok` is `expected_token`; the second component records whether the
mismatch error was logged. -/
def determineLabel (inTok expTok : List Char) : List Char × Bool :=
  if inTok = expTok then (['B'], false)
  else if inTok = expTok.take (expTok.length - 1) then
    (expTok.drop (expTok.length - 1), false)
  else if inTok = expTok.take (expTok.length - 3) ∧
      expTok.drop (expTok.length - 3) = ['.', '.', '.'] then
    (['.', '.', '.'], false)
  else (['B'], true)

/-! ## Sequence chunker, from `src/split_long_examples.py`,
`DataSplitter._split_long_examples`.

One row of the grouped dataframe is a `(word, label, time)` triple.  The
external subword tokenizer only ever contributes the length
`len(self.tokenizer.tokenize(word))`; it is modelled by an opaque
function `tokLen : String → Nat`.  The float stride is modelled as the
exact rational `sNum / sDen`; `int(words_in_example * stride)` truncates
a non-negative float, which for the exactly representable strides in use
(1.0 and 0.5) equals Nat division `wordsInExample * sNum / sDen`.
`tokenized_len` is kept as an `Int`, exactly as the Python int, so the
comparisons with `max_seq_len - 1` and the final `>= 0` guard carry over
verbatim.  The Python loop body first (possibly) flushes and trims the
window and then unconditionally appends the current row; the model
inlines that trailing append into both branches of the flush test. -/

/-- One `(word, label, time)` row of a sentence. -/
structure ChunkRow where
  word : String
  label : String
  time : String
deriving DecidableEq

/-- The loop state of `_split_long_examples` for one sentence:
`words_with_labels`, `words_in_example`, `tokenized_len`, `token_lens`,
`chunk_id`, plus the list of already emitted chunks (each tagged with
its chunk id, standing for the `f"{sentence_id}_{chunk_id}"` suffix). -/
@[ext]
structure ChunkState where
  wordsWithLabels : List ChunkRow
  wordsInExample : Nat
  tokenizedLen : Int
  tokenLens : List Nat
  chunkId : Nat
  chunks : List (Nat × List ChunkRow)
deriving DecidableEq

/-- The initial loop state. -/
def initChunkState : ChunkState := ⟨[], 0, 0, [], 0, []⟩

/-- The trim offset `int(words_in_example * stride)` for stride
`sNum / sDen`. -/
def chunkOffset (sNum sDen n : Nat) : Nat := n * sNum / sDen

/-- One iteration of the `for word, label, space in zip(...)` loop. -/
def chunkStep (maxSeqLen sNum sDen : Nat) (tokLen : String → Nat)
    (st : ChunkState) (row : ChunkRow) : ChunkState :=
  let tw := tokLen row.word
  if (maxSeqLen : Int) - 1 ≤ st.tokenizedLen + (tw : Int) then
    let offset := chunkOffset sNum sDen st.wordsInExample
    { wordsWithLabels := st.wordsWithLabels.drop offset ++ [row]
      wordsInExample := st.wordsInExample - offset + 1
      tokenizedLen :=
        st.tokenizedLen - (((st.tokenLens.take offset).sum : Nat) : Int) + (tw : Int)
      tokenLens := st.tokenLens.drop offset ++ [tw]
      chunkId := st.chunkId + 1
      chunks := st.chunks ++ [(st.chunkId, st.wordsWithLabels)] }
  else
    { wordsWithLabels := st.wordsWithLabels ++ [row]
      wordsInExample := st.wordsInExample + 1
      tokenizedLen := st.tokenizedLen + (tw : Int)
      tokenLens := st.tokenLens ++ [tw]
      chunkId := st.chunkId
      chunks := st.chunks }

/-- Embedding of `_split_long_examples` restricted to one sentence: the
loop over the sentence rows followed by the unconditional trailing flush
(guarded, as in the source, by `tokenized_len >= 0`). -/
def splitLongExample (maxSeqLen sNum sDen : Nat) (tokLen : String → Nat)
    (rows : List ChunkRow) : List (Nat × List ChunkRow) :=
  let fin := rows.foldl (chunkStep maxSeqLen sNum sDen tokLen) initChunkState
  if 0 ≤ fin.tokenizedLen then fin.chunks ++ [(fin.chunkId, fin.wordsWithLabels)]
  else fin.chunks

/-- Data invariant of the chunker loop state: `tokenized_len` is the sum
of `token_lens`, and `token_lens` and `words_in_example` track the
window row list. -/
def ChunkInv (st : ChunkState) : Prop :=
  st.tokenizedLen = ((st.tokenLens.sum : Nat) : Int) ∧
  st.tokenLens.length = st.wordsWithLabels.length ∧
  st.wordsInExample = st.wordsWithLabels.length

/-- Adjacent chunk windows are chained: each window begins with the
retained suffix of its predecessor (the suffix from index
`chunkOffset sNum sDen length`). -/
def chunkChain (sNum sDen : Nat) : List (List ChunkRow) → Prop
  | c :: d :: rest =>
      (∃ r, d = c.drop (chunkOffset sNum sDen c.length) ++ r) ∧
      chunkChain sNum sDen (d :: rest)
  | _ => True

/-- Each pair of consecutive chunk windows shares exactly
`length - chunkOffset sNum sDen length` rows: the trailing rows of a
window reappear as the leading rows of the next one. -/
def consecutiveShare (sNum sDen : Nat) : List (List ChunkRow) → Prop
  | c :: d :: rest =>
      d.take (c.length - chunkOffset sNum sDen c.length) =
        c.drop (chunkOffset sNum sDen c.length) ∧
      consecutiveShare sNum sDen (d :: rest)
  | _ => True

/-- The current window extends the trimmed suffix of the last emitted
chunk (trivially true while no chunk has been emitted). -/
def bufExtends (sNum sDen : Nat) (st : ChunkState) : Prop :=
  st.chunks = [] ∨ ∃ c r, st.chunks.getLast? = some c ∧
    st.wordsWithLabels = c.2.drop (chunkOffset sNum sDen c.2.length) ++ r

/-- The constant-one token length used in the hand-computed example (ten
words of one subword each). -/
def tokLenOne : String → Nat := fun _ => 1

/-- The ten-word sentence of the hand-computed chunking example. -/
def rows10 : List ChunkRow :=
  [⟨"w0", "B", "0"⟩, ⟨"w1", "B", "0"⟩, ⟨"w2", "B", "0"⟩, ⟨"w3", "B", "0"⟩,
   ⟨"w4", "B", "0"⟩, ⟨"w5", "B", "0"⟩, ⟨"w6", "B", "0"⟩, ⟨"w7", "B", "0"⟩,
   ⟨"w8", "B", "0"⟩, ⟨"w9", "B", "0"⟩]

/-- A two-word sentence whose subword total stays below the threshold. -/
def rows2 : List ChunkRow := [⟨"w0", "B", "0"⟩, ⟨"w1", "B", "0"⟩]

/-- A four-word sentence used as a small concrete chunking instance. -/
def rows4 : List ChunkRow :=
  [⟨"w0", "B", "0"⟩, ⟨"w1", "B", "0"⟩, ⟨"w2", "B", "0"⟩, ⟨"w3", "B", "0"⟩]

/-! ## JSON to TSV conversion, from `src/converters/json_converter.py`
(`JsonToTsvConverter`) and `src/parsers/parse_json2.py`
(`JsonToConllConverter`).

Both converters walk the token list of one JSON document and build an
input text, an expected text, and an intact text, then normalize the
input and expected texts through the same chain of regular-expression
substitutions.  Strings are `List Char`.  Python `str.lower()` is
modelled character-wise by `Char.toLower` (exact for the ASCII texts of
the claims); `str.strip()` is modelled as stripping spaces, the only
whitespace these builders produce.  The word test
`re.match(r^[^\w"%]+$, word)` holds when the word is non-empty and
every character is neither a word character nor a double quote nor a
percent sign; `\w` is modelled by ASCII alphanumerics plus underscore
(the regex is identical in both converters, and the claims only involve
ASCII words). -/

/-- One token of a JSON document: `punctuation`, `space_after`, `word`. -/
structure WordData where
  punctuation : List Char
  space_after : Bool
  word : List Char
deriving DecidableEq

/-- Model of the `\w` character class (ASCII). -/
def isWordChar (c : Char) : Bool := c.isAlphanum || c = '_'

/-- Model of `re.match` with the non-word pattern used by both
converters on a whole word. -/
def matchesNonWord (w : List Char) : Bool :=
  !w.isEmpty && w.all (fun c => !isWordChar c && c ≠ '"' && c ≠ '%')

/-- One iteration of the token loop of
`JsonToTsvConverter._build_texts`: the accumulator is
`(text_in, text_exp, text_intact)`.  In this converter the expected
text receives the bare word, plus the punctuation only in the
hyphen-with-no-space edge case. -/
def buildTextsStep (acc : List Char × List Char × List Char) (wd : WordData) :
    List Char × List Char × List Char :=
  let intact1 := acc.2.2 ++ wd.word ++ wd.punctuation
  let inExp :=
    if matchesNonWord wd.word = false then
      (acc.1 ++ wd.word,
       acc.2.1 ++ wd.word ++
         (if wd.punctuation = ['-'] ∧ wd.space_after = false then ['-'] else []))
    else (acc.1, acc.2.1)
  let intact2 := intact1 ++ [' ']
  if wd.space_after = true ∨ wd.punctuation ≠ [] then
    (inExp.1 ++ [' '], inExp.2 ++ [' '], intact2)
  else (inExp.1, inExp.2, intact2)

/-- `JsonToTsvConverter._build_texts`: returns
`(text_in, text_exp, text_intact)`. -/
def buildTexts (words : List WordData) : List Char × List Char × List Char :=
  words.foldl buildTextsStep ([], [], [])

/-- One iteration of the token loop of
`JsonToConllConverter._load_json` in `parse_json2.py`: the expected
text receives `word + punctuation`, except in the hyphen-with-no-space
edge case where it receives the bare word. -/
def buildTextsStep2 (acc : List Char × List Char × List Char) (wd : WordData) :
    List Char × List Char × List Char :=
  let intact1 := acc.2.2 ++ wd.word ++ wd.punctuation
  let inExp :=
    if matchesNonWord wd.word = false then
      (acc.1 ++ wd.word,
       acc.2.1 ++
         (if wd.punctuation = ['-'] ∧ wd.space_after = false then wd.word
          else wd.word ++ wd.punctuation))
    else (acc.1, acc.2.1)
  let intact2 := intact1 ++ [' ']
  if wd.space_after = true ∨ wd.punctuation ≠ [] then
    (inExp.1 ++ [' '], inExp.2 ++ [' '], intact2)
  else (inExp.1, inExp.2, intact2)

/-- The text-building loop of `parse_json2.py`. -/
def buildTexts2 (words : List WordData) : List Char × List Char × List Char :=
  words.foldl buildTextsStep2 ([], [], [])

/-- The character class of `re.sub(r"[,!?.:;-]", " ", ...)` used on the
input text. -/
def inPunct : List Char := [',', '!', '?', '.', ':', ';', '-']

/-- The character class of `re.sub(r"[!?.:;-]([^ ])", r" \1", ...)`
(note: no comma). -/
def gluePunct : List Char := ['!', '?', '.', ':', ';', '-']

/-- The character class of `re.sub(r"[…,!?.:;-]", " ", ...)` used on the
expected text. -/
def expPunct : List Char := ['…', ',', '!', '?', '.', ':', ';', '-']

/-- Character map of the input-text substitution: punctuation becomes a
space. -/
def inSpace (c : Char) : Char := if c ∈ inPunct then ' ' else c

/-- Character map of the expected-text final substitution: punctuation
and the ellipsis glyph become a space. -/
def expSpace (c : Char) : Char := if c ∈ expPunct then ' ' else c

/-- `re.sub(r"\.\.\.", "…", ...)`: leftmost non-overlapping replacement
of three dots by the single ellipsis glyph. -/
def subEllipsis : List Char → List Char
  | [] => []
  | [c] => [c]
  | [c, d] => [c, d]
  | c :: d :: e :: rest =>
      if c = '.' ∧ d = '.' ∧ e = '.' then '…' :: subEllipsis rest
      else c :: subEllipsis (d :: e :: rest)

/-- `re.sub(r"[!?.:;-]([^ ])", r" \1", ...)`: a punctuation character
immediately followed by a non-space is replaced by a space, keeping the
follower; scanning continues after the match. -/
def glueSub : List Char → List Char
  | c :: d :: rest =>
      if c ∈ gluePunct ∧ d ≠ ' ' then ' ' :: d :: glueSub rest
      else c :: glueSub (d :: rest)
  | l => l

/-- `re.sub(r"…", "...", ...)`: the ellipsis glyph becomes three dots. -/
def restoreEllipsis : List Char → List Char
  | [] => []
  | c :: rest =>
      if c = '…' then '.' :: '.' :: '.' :: restoreEllipsis rest
      else c :: restoreEllipsis rest

/-- `re.sub(r" +", " ", ...)`: a run of spaces collapses to one space
(each space directly followed by another space is dropped). -/
def collapseSpaces : List Char → List Char
  | [] => []
  | c :: rest =>
      if c = ' ' ∧ rest.head? = some ' ' then collapseSpaces rest
      else c :: collapseSpaces rest

/-- `str.strip()` on the space-separated texts. -/
def stripSpaces (l : List Char) : List Char :=
  ((l.dropWhile (fun c => c = ' ')).reverse.dropWhile (fun c => c = ' ')).reverse

/-- `JsonToTsvConverter._normalize_text_in`: lower-case, punctuation to
spaces, collapse space runs, strip. -/
def normalizeTextIn (l : List Char) : List Char :=
  stripSpaces (collapseSpaces ((l.map Char.toLower).map inSpace))

/-- `JsonToTsvConverter._normalize_text_exp`: lower-case, protect three
dots as one glyph, break punctuation glued to a following character,
punctuation and glyph to spaces, collapse space runs, restore the
glyph, strip.  The same substitution chain appears inline in
`parse_json2.py`. -/
def normalizeTextExp (l : List Char) : List Char :=
  stripSpaces (restoreEllipsis (collapseSpaces
    ((glueSub (subEllipsis (l.map Char.toLower))).map expSpace)))

/-- `JsonToTsvConverter._load_json`: the `(input, expected)` text pair
of one document. -/
def loadJson (ws : List WordData) : List Char × List Char :=
  (normalizeTextIn (buildTexts ws).1, normalizeTextExp (buildTexts ws).2.1)

/-- `JsonToConllConverter._load_json` of `parse_json2.py`: the
`(input, expected)` text pair of one document (the trailing `strip`
happens in its return statement). -/
def loadJson2 (ws : List WordData) : List Char × List Char :=
  (normalizeTextIn (buildTexts2 ws).1, normalizeTextExp (buildTexts2 ws).2.1)

/-- The punctuation values of the label alphabet (including the empty
string): the domain on which the two converters are compared. -/
def allowedPunct : List (List Char) :=
  [[], [':'], [';'], [','], ['.'], ['-'], ['.', '.', '.'], ['?'], ['!']]

/-- The per-token contribution to the input text (common to both
converters). -/
def sepSeg (wd : WordData) : List Char :=
  if wd.space_after = true ∨ wd.punctuation ≠ [] then [' '] else []

/-- Per-token input-text segment. -/
def segIn (wd : WordData) : List Char :=
  (if matchesNonWord wd.word = false then wd.word else []) ++ sepSeg wd

/-- Per-token expected-text segment of `json_converter.py`. -/
def segExpJ (wd : WordData) : List Char :=
  (if matchesNonWord wd.word = false then
     wd.word ++ (if wd.punctuation = ['-'] ∧ wd.space_after = false then ['-'] else [])
   else []) ++ sepSeg wd

/-- Per-token expected-text segment of `parse_json2.py`. -/
def segExpP (wd : WordData) : List Char :=
  (if matchesNonWord wd.word = false then
     (if wd.punctuation = ['-'] ∧ wd.space_after = false then wd.word
      else wd.word ++ wd.punctuation)
   else []) ++ sepSeg wd

/-- Per-token intact-text segment. -/
def segIntact (wd : WordData) : List Char := wd.word ++ wd.punctuation ++ [' ']

/-- The three-token document of the end-to-end example: dog, runs with a
period and no following space, Home. -/
def docC6 : List WordData :=
  [⟨[], true, "dog".data⟩, ⟨['.'], false, "runs".data⟩, ⟨[], false, "Home".data⟩]

/-- A one-token document whose punctuation is a double quote, outside
the label alphabet. -/
def docQuote : List WordData := [⟨['"'], false, "ab".data⟩]

/-- A one-token document whose word contains the ellipsis glyph: its
normalized input and expected texts have different token counts. -/
def docMismatch : List WordData := [⟨[], true, "a…b".data⟩]

/-! ## TSV to CONLL conversion, from `src/parsers/tsv_parser.py`,
`TsvParser.convert` (without a forced-alignment directory, the default).

One record is the pair of the input text (the part of the `in.tsv` line
after the tab-separated id) and the stripped `expected.tsv` line.  The
output is the list of written lines: one `word TAB label` line per
token and an empty line after each record. -/

/-- Python `text.split(" ")`: split on every single space, keeping
empty fields. -/
def splitOnSpace : List Char → List (List Char)
  | [] => [[]]
  | ' ' :: rest => [] :: splitOnSpace rest
  | c :: rest =>
      match splitOnSpace rest with
      | t :: ts => (c :: t) :: ts
      | [] => [[c]]

/-- The lines `TsvParser.convert` writes for one record: nothing when
the token counts differ (the assertion fails, a warning is logged and
the record is skipped), otherwise one line per aligned token pair plus
the empty sentence-boundary line. -/
def perRecord (r : List Char × List Char) : List (List Char) :=
  if (splitOnSpace r.1).length = (splitOnSpace r.2).length then
    (((splitOnSpace r.1).zip (splitOnSpace r.2)).map (fun p =>
      p.1 ++ '\t' :: (determineLabel p.1 (p.2.map Char.toLower)).1)) ++ [[]]
  else []

/-- All lines written by `TsvParser.convert` over the zipped line pairs
of `in.tsv` and `expected.tsv`. -/
def convertRecords (records : List (List Char × List Char)) : List (List Char) :=
  (records.map perRecord).flatten

/-- `JsonToTsvConverter._write_output`: for every routed document
(stem, token list), unconditionally write `stem TAB input_text` to the
`in` file and `expected_text` to the `expected` file. -/
def writeOutput (docs : List (List Char × List WordData)) :
    List (List Char) × List (List Char) :=
  (docs.map (fun d => d.1 ++ '\t' :: (loadJson d.2).1),
   docs.map (fun d => (loadJson d.2).2))

/-! ## Document routing, from `src/converters/json_converter.py`,
`JsonToTsvConverter._get_json_paths` and `_sort_paths`.

Candidate JSON paths are represented by their stems (the wikipunct text
ids): `_get_json_paths` inspects only `json_path.stem`, and this file's
`_sort_paths` compares `wikipunct_text_id == path.stem`.  The
manifest-membership tests `wikipunct_text_id in train_names` are Python
list membership.  `random.shuffle` after `random.seed(0)` is an
external PRNG call: it is modelled by an opaque function `shuffle`,
assumed only to permute its argument; being a function, it is the same
deterministic permutation on every run. -/

/-- `JsonToTsvConverter._sort_paths`: for each manifest name in order,
append the first candidate path whose stem equals it (then break). -/
def sortPaths (paths names : List String) : List String :=
  names.filterMap (fun n => paths.find? (fun p => p = n))

/-- One iteration of the routing loop of `_get_json_paths`: train
membership first, then test, else rest. -/
def routeStep (trainNames testNames : List String)
    (acc : List String × List String × List String) (c : String) :
    List String × List String × List String :=
  if c ∈ trainNames then (acc.1 ++ [c], acc.2.1, acc.2.2)
  else if c ∈ testNames then (acc.1, acc.2.1 ++ [c], acc.2.2)
  else (acc.1, acc.2.1, acc.2.2 ++ [c])

/-- `JsonToTsvConverter._get_json_paths`: route the candidate stems,
reorder train and test by manifest order, shuffle the rest. -/
def routePaths (shuffle : List String → List String)
    (trainNames testNames candidates : List String) :
    List String × List String × List String :=
  let buckets := candidates.foldl (routeStep trainNames testNames) ([], [], [])
  (sortPaths buckets.1 trainNames, sortPaths buckets.2.1 testNames,
   shuffle buckets.2.2)

/-! ## Dataset splitting, from `src/converters/pandas_converter.py`,
`DataFrameSplitter._split_dataframe` and `DataFrameSplitter.run`.

A dataframe is a row list; a row carries its `sentence_id`.
`data.sentence_id.unique()` keeps first occurrences in order.
`random.sample(population, k)` is an external PRNG call, modelled by an
opaque function `sample` whose contract (k distinct elements of the
population, when k does not exceed it) is a hypothesis of the
theorems.  Python `round` rounds half to even; the float products
`len * 0.8` and `len * 0.5` are modelled as the exact rationals
`4/5` and `1/2` via integer arithmetic. -/

/-- One labeled row of the tabular dataset. -/
structure DataRow where
  word : String
  label : String
  time : String
  sentence_id : Nat
deriving DecidableEq

/-- Pandas `unique()`: first occurrences, in order. -/
def uniqueIds (l : List Nat) : List Nat :=
  l.foldl (fun acc x => if x ∈ acc then acc else acc ++ [x]) []

/-- Python `round(a / den)` on exact rationals: round half to even. -/
def pyRoundHalfEven (a den : Nat) : Nat :=
  if 2 * (a % den) < den then a / den
  else if den < 2 * (a % den) then a / den + 1
  else if a / den % 2 = 0 then a / den else a / den + 1

/-- `DataFrameSplitter._split_dataframe` with train proportion
`pNum / pDen`: sample `round(len(sentence_ids) * prop)` sentence ids,
return the rows with sampled ids and the remaining rows. -/
def splitDataframe (sample : List Nat → Nat → List Nat) (pNum pDen : Nat)
    (data : List DataRow) : List DataRow × List DataRow :=
  let sentenceIds := uniqueIds (data.map (fun r => r.sentence_id))
  let trainIds := sample sentenceIds (pyRoundHalfEven (sentenceIds.length * pNum) pDen)
  (data.filter (fun r => r.sentence_id ∈ trainIds),
   data.filter (fun r => r.sentence_id ∉ trainIds))

/-- `DataFrameSplitter.run` with `split_to_files`: train versus the
rest at ratio 0.8, then dev versus test at ratio 0.5. -/
def runSplit (sample : List Nat → Nat → List Nat) (data : List DataRow) :
    List DataRow × List DataRow × List DataRow :=
  let stage1 := splitDataframe sample 4 5 data
  let stage2 := splitDataframe sample 1 2 stage1.2
  (stage1.1, stage2.1, stage2.2)

/-! ## Sentence-level label filtering, from
`src/train_ner_punctuation.py`, `NERTrainer.load_data`. -/

/-- `Label.list()` as strings. -/
def labelStrings : List String :=
  ["B", ":", ";", ",", ".", "-", "...", "?", "!"]

/-- The `sentence_id` column of the rows whose label is outside the
alphabet (`train_data[~train_data.labels.isin(self.labels)].sentence_id`). -/
def sentencesToDelete (rows : List DataRow) : List Nat :=
  (rows.filter (fun r => r.label ∉ labelStrings)).map (fun r => r.sentence_id)

/-- The row filter of `NERTrainer.load_data`
(`data.loc[~data.sentence_id.isin(sentences_to_delete)]`), applied to
one dataset. -/
def loadDataFilter (rows : List DataRow) : List DataRow :=
  rows.filter (fun r => r.sentence_id ∉ sentencesToDelete rows)

/-- The contract of `random.sample(population, k)` for `k` at most the
population size: `k` elements drawn from the population without
replacement (distinct positions, hence distinct values on a
duplicate-free population). -/
def SampleContract (sample : List Nat → Nat → List Nat) : Prop :=
  ∀ (l : List Nat) (k : Nat), k ≤ l.length →
    (sample l k).length = k ∧ (∀ x ∈ sample l k, x ∈ l) ∧
    (l.Nodup → (sample l k).Nodup)

/-- A concrete sampler (a prefix draw) used to witness the sample
contract. -/
def sampleTake : List Nat → Nat → List Nat := fun l k => l.take k

/-- The identity permutation, used to witness the shuffle contract. -/
def shuffleId : List String → List String := fun l => l

/-- A small concrete dataset of three sentences for the split
witness. -/
def dataC9 : List DataRow :=
  [⟨"a", "B", "0", 0⟩, ⟨"b", ".", "0", 1⟩, ⟨"c", "B", "0", 1⟩, ⟨"d", "B", "0", 2⟩]

end PunctRestore

namespace PunctRestore

/-- Helper: the equal-token branch of `_determine_label`. -/
theorem determineLabel_of_eq {inTok expTok : List Char} (h : inTok = expTok) :
    determineLabel inTok expTok = (['B'], false) := by
  rw [determineLabel, if_pos h]

/-- Helper: the branch where the input equals the expected token with its
last character removed. -/
theorem determineLabel_of_dropLast {inTok expTok : List Char} (hne : expTok ≠ [])
    (h : inTok = expTok.take (expTok.length - 1)) :
    determineLabel inTok expTok = (expTok.drop (expTok.length - 1), false) := by
  have hlen : expTok.length ≠ 0 := fun h0 => hne (List.length_eq_zero.mp h0)
  have hne2 : inTok ≠ expTok := by
    intro he
    have := congrArg List.length h
    rw [he, List.length_take] at this
    omega
  rw [determineLabel, if_neg hne2, if_pos h]

/-- Helper: the ellipsis branch. -/
theorem determineLabel_of_ellipsis {inTok expTok : List Char}
    (h1 : inTok = expTok.take (expTok.length - 3))
    (h2 : expTok.drop (expTok.length - 3) = ['.', '.', '.']) :
    determineLabel inTok expTok = (['.', '.', '.'], false) := by
  have h3 : 3 ≤ expTok.length := by
    have := congrArg List.length h2
    rw [List.length_drop] at this
    simp at this
    omega
  have hne : inTok ≠ expTok := by
    intro he
    have := congrArg List.length h1
    rw [he, List.length_take] at this
    omega
  have hne1 : inTok ≠ expTok.take (expTok.length - 1) := by
    intro he
    have e1 := congrArg List.length h1
    have e2 := congrArg List.length he
    rw [List.length_take] at e1 e2
    omega
  rw [determineLabel, if_neg hne, if_neg hne1, if_pos ⟨h1, h2⟩]

/-- Helper: the fallback branch logs an error and returns `B`. -/
theorem determineLabel_fallback {inTok expTok : List Char} (h1 : inTok ≠ expTok)
    (h2 : inTok ≠ expTok.take (expTok.length - 1))
    (h3 : ¬ (inTok = expTok.take (expTok.length - 3) ∧
        expTok.drop (expTok.length - 3) = ['.', '.', '.'])) :
    determineLabel inTok expTok = (['B'], true) := by
  rw [determineLabel, if_neg h1, if_neg h2, if_neg h3]

/-- C1: label determination is the four-way case split of
`_determine_label`: equal tokens give the none label `B` with no error;
`in_token` equal to `expected_token` minus its final character gives that
final character; `in_token` equal to `expected_token` minus a literal
`...` suffix gives the ellipsis label; every other input gives `B` with
an error logged (and never raises, being a total function).  The four
concrete spec examples evaluate accordingly. -/
theorem c1_determine_label :
    (∀ inTok expTok : List Char,
      (inTok = expTok → determineLabel inTok expTok = (['B'], false)) ∧
      (expTok ≠ [] → inTok = expTok.take (expTok.length - 1) →
        determineLabel inTok expTok = (expTok.drop (expTok.length - 1), false)) ∧
      (inTok = expTok.take (expTok.length - 3) →
        expTok.drop (expTok.length - 3) = ['.', '.', '.'] →
        determineLabel inTok expTok = (['.', '.', '.'], false)) ∧
      (inTok ≠ expTok → inTok ≠ expTok.take (expTok.length - 1) →
        ¬ (inTok = expTok.take (expTok.length - 3) ∧
            expTok.drop (expTok.length - 3) = ['.', '.', '.']) →
        determineLabel inTok expTok = (['B'], true))) ∧
    determineLabel "dog".data "dog".data = (['B'], false) ∧
    determineLabel "dog".data "dog.".data = (['.'], false) ∧
    determineLabel "dog".data "dog...".data = (['.', '.', '.'], false) ∧
    determineLabel "dog".data "cat".data = (['B'], true) := by
  exact ⟨fun inTok expTok =>
    ⟨fun h => determineLabel_of_eq h,
     fun hne h => determineLabel_of_dropLast hne h,
     fun h1 h2 => determineLabel_of_ellipsis h1 h2,
     fun h1 h2 h3 => determineLabel_fallback h1 h2 h3⟩,
    by decide, by decide, by decide, by decide⟩

/-- Witness for C1: the hypotheses of each conditional clause are
satisfiable; we discharge the fallback clause at the concrete input
of tokens dog and cat. -/
theorem c1_determine_label_witness :
    determineLabel "dog".data "cat".data = (['B'], true) :=
  (c1_determine_label.1 "dog".data "cat".data).2.2.2
    (by decide) (by decide) (by decide)

/-- Counterexample to C7: when the expected token extends the input token
by one character, `_determine_label` returns that character with no
membership check against the label alphabet; for input do and expected
dox it returns the label x, which is not a single-character punctuation
label. -/
theorem c7_counterexample :
    determineLabel "do".data "dox".data = (['x'], false) ∧
      ['x'] ∉ singleCharLabels := by
  decide

/-- C7 amended: when the input token equals the expected token with its
last character removed, the returned label is exactly that trailing
character, with no containment check: the label lies in the
single-character punctuation alphabet precisely when the trailing
character is one of the seven punctuation characters. -/
theorem c7_trailing_char_label (inTok expTok : List Char) (c : Char)
    (hne : expTok ≠ []) (hpre : inTok = expTok.take (expTok.length - 1))
    (hlast : expTok.drop (expTok.length - 1) = [c]) :
    determineLabel inTok expTok = ([c], false) ∧
      ([c] ∈ singleCharLabels ↔ c ∈ [':', ';', ',', '.', '-', '?', '!']) := by
  constructor
  · have := determineLabel_of_dropLast hne hpre
    rw [this, hlast]
  · simp [singleCharLabels]

/-- Witness for C7 amended: concrete instance with expected token dog
followed by a period. -/
theorem c7_trailing_char_label_witness :
    determineLabel "dog".data "dog.".data = (['.'], false) ∧
      (['.'] ∈ singleCharLabels ↔ '.' ∈ [':', ';', ',', '.', '-', '?', '!']) :=
  c7_trailing_char_label "dog".data "dog.".data '.'
    (by decide) (by decide) (by decide)

/-! ## Chunker lemmas -/

/-- `chunkStep` preserves the loop-state data invariant. -/
theorem chunkStep_inv (maxSeqLen sNum sDen : Nat) (tokLen : String → Nat)
    (st : ChunkState) (row : ChunkRow) (h : ChunkInv st) :
    ChunkInv (chunkStep maxSeqLen sNum sDen tokLen st row) := by
  obtain ⟨h1, h2, h3⟩ := h
  rw [chunkStep]
  by_cases hc : (maxSeqLen : Int) - 1 ≤ st.tokenizedLen + ((tokLen row.word : Nat) : Int)
  · rw [if_pos hc]
    have hsum := congrArg List.sum
      (List.take_append_drop (chunkOffset sNum sDen st.wordsInExample) st.tokenLens)
    rw [List.sum_append] at hsum
    refine ⟨?_, ?_, ?_⟩
    · simp only [List.sum_append, List.sum_cons, List.sum_nil]
      rw [h1]
      push_cast [← hsum]
      ring
    · simp [List.length_drop, h2]
    · simp [List.length_drop, h3]
  · rw [if_neg hc]
    refine ⟨?_, ?_, ?_⟩
    · simp only [List.sum_append, List.sum_cons, List.sum_nil]
      rw [h1]
      push_cast
      ring
    · simp [h2]
    · simp [h3]

/-- The fold over a sentence preserves the data invariant. -/
theorem foldl_chunkStep_inv (maxSeqLen sNum sDen : Nat) (tokLen : String → Nat) :
    ∀ (rows : List ChunkRow) (st : ChunkState), ChunkInv st →
      ChunkInv (rows.foldl (chunkStep maxSeqLen sNum sDen tokLen) st) := by
  intro rows
  induction rows with
  | nil => intro st h; exact h
  | cons row rows ih =>
    intro st h
    exact ih _ (chunkStep_inv maxSeqLen sNum sDen tokLen st row h)

/-- At stride 1.0 the trim offset is the whole window, so one step just
moves the window content forward: emitted chunks plus the live window
always concatenate to the rows seen so far. -/
theorem chunkStep_one_join (maxSeqLen : Nat) (tokLen : String → Nat)
    (st : ChunkState) (row : ChunkRow) (h : ChunkInv st) :
    ((chunkStep maxSeqLen 1 1 tokLen st row).chunks.map Prod.snd).flatten ++
        (chunkStep maxSeqLen 1 1 tokLen st row).wordsWithLabels =
      ((st.chunks.map Prod.snd).flatten ++ st.wordsWithLabels) ++ [row] := by
  obtain ⟨h1, h2, h3⟩ := h
  rw [chunkStep]
  by_cases hc : (maxSeqLen : Int) - 1 ≤ st.tokenizedLen + ((tokLen row.word : Nat) : Int)
  · rw [if_pos hc]
    have hoff : chunkOffset 1 1 st.wordsInExample = st.wordsWithLabels.length := by
      simp [chunkOffset, h3]
    simp [hoff, List.drop_length, List.flatten_append, List.append_assoc]
  · rw [if_neg hc]
    simp [List.append_assoc]

/-- The fold version of `chunkStep_one_join`. -/
theorem foldl_one_join (maxSeqLen : Nat) (tokLen : String → Nat) :
    ∀ (rows : List ChunkRow) (st : ChunkState), ChunkInv st →
      ((rows.foldl (chunkStep maxSeqLen 1 1 tokLen) st).chunks.map Prod.snd).flatten ++
          (rows.foldl (chunkStep maxSeqLen 1 1 tokLen) st).wordsWithLabels =
        ((st.chunks.map Prod.snd).flatten ++ st.wordsWithLabels) ++ rows := by
  intro rows
  induction rows with
  | nil => intro st h; simp
  | cons row rows ih =>
    intro st h
    rw [List.foldl_cons]
    rw [ih _ (chunkStep_inv maxSeqLen 1 1 tokLen st row h)]
    rw [chunkStep_one_join maxSeqLen tokLen st row h]
    simp [List.append_assoc]

/-- If the whole remainder of the sentence cannot reach the flush
threshold, the fold is a plain accumulation: no chunk is emitted. -/
theorem foldl_no_flush (maxSeqLen sNum sDen : Nat) (tokLen : String → Nat) :
    ∀ (rows : List ChunkRow) (st : ChunkState),
      st.tokenizedLen + ((rows.map (fun r => ((tokLen r.word : Nat) : Int))).sum) <
          (maxSeqLen : Int) - 1 →
      rows.foldl (chunkStep maxSeqLen sNum sDen tokLen) st =
        { wordsWithLabels := st.wordsWithLabels ++ rows
          wordsInExample := st.wordsInExample + rows.length
          tokenizedLen :=
            st.tokenizedLen + ((rows.map (fun r => ((tokLen r.word : Nat) : Int))).sum)
          tokenLens := st.tokenLens ++ rows.map (fun r => tokLen r.word)
          chunkId := st.chunkId
          chunks := st.chunks } := by
  intro rows
  induction rows with
  | nil =>
    intro st _
    simp
  | cons row rows ih =>
    intro st h
    have hnn : 0 ≤ (rows.map (fun r => ((tokLen r.word : Nat) : Int))).sum := by
      apply List.sum_nonneg
      intro x hx
      obtain ⟨r, _, rfl⟩ := List.mem_map.mp hx
      positivity
    have hrow : ¬ ((maxSeqLen : Int) - 1 ≤ st.tokenizedLen + ((tokLen row.word : Nat) : Int)) := by
      rw [List.map_cons, List.sum_cons] at h
      omega
    rw [List.foldl_cons, chunkStep, if_neg hrow]
    rw [ih]
    · apply ChunkState.ext <;> simp [List.append_assoc] <;> omega
    · dsimp only
      rw [List.map_cons, List.sum_cons] at h
      omega

/-- C2: at stride 1.0, for any budget and any token-length function, the
chunks emitted by `_split_long_examples` form an ordered partition of
the sentence: their concatenation in emission order is exactly the
original row sequence; and a sentence whose accumulated subword length
never reaches the flush threshold is emitted as the single chunk 0
containing the whole sentence, because the trailing flush is
unconditional. -/
theorem c2_chunks_partition (maxSeqLen : Nat) (tokLen : String → Nat)
    (rows : List ChunkRow) :
    ((splitLongExample maxSeqLen 1 1 tokLen rows).map Prod.snd).flatten = rows ∧
    (((rows.map (fun r => ((tokLen r.word : Nat) : Int))).sum < (maxSeqLen : Int) - 1) →
      splitLongExample maxSeqLen 1 1 tokLen rows = [(0, rows)]) := by
  constructor
  · have hinv0 : ChunkInv initChunkState := by
      refine ⟨rfl, rfl, rfl⟩
    have hinv := foldl_chunkStep_inv maxSeqLen 1 1 tokLen rows initChunkState hinv0
    have hjoin := foldl_one_join maxSeqLen tokLen rows initChunkState hinv0
    rw [splitLongExample]
    have hpos : 0 ≤ (rows.foldl (chunkStep maxSeqLen 1 1 tokLen) initChunkState).tokenizedLen := by
      rw [hinv.1]
      positivity
    rw [if_pos hpos]
    simp only [List.map_append, List.map_cons, List.map_nil, List.flatten_append,
      List.flatten_cons, List.flatten_nil, List.append_nil]
    simpa [initChunkState] using hjoin
  · intro h
    rw [splitLongExample, foldl_no_flush maxSeqLen 1 1 tokLen rows initChunkState
      (by simpa [initChunkState] using h)]
    have hnn : 0 ≤ (rows.map (fun r => ((tokLen r.word : Nat) : Int))).sum := by
      apply List.sum_nonneg
      intro x hx
      obtain ⟨r, _, rfl⟩ := List.mem_map.mp hx
      positivity
    simp [initChunkState, hnn]

/-- Witness for C2: a two-word sentence with budget 5 and unit token
lengths stays below the threshold and is emitted as one whole chunk. -/
theorem c2_chunks_partition_witness :
    ((rows2.map (fun r => ((tokLenOne r.word : Nat) : Int))).sum < (5 : Int) - 1) ∧
      splitLongExample 5 1 1 tokLenOne rows2 = [(0, rows2)] :=
  ⟨by decide, (c2_chunks_partition 5 tokLenOne rows2).2 (by decide)⟩

/-- Appending a window that extends the trimmed suffix of the last chunk
preserves the chain property. -/
theorem chunkChain_append (sNum sDen : Nat) :
    ∀ (cs : List (List ChunkRow)) (b : List ChunkRow),
      chunkChain sNum sDen cs →
      (∀ c, cs.getLast? = some c →
        ∃ r, b = c.drop (chunkOffset sNum sDen c.length) ++ r) →
      chunkChain sNum sDen (cs ++ [b]) := by
  intro cs
  induction cs with
  | nil =>
    intro b _ _
    simp [chunkChain]
  | cons c cs ih =>
    cases cs with
    | nil =>
      intro b _ hl
      refine ⟨hl c rfl, ?_⟩
      simp [chunkChain]
    | cons d rest =>
      intro b h hl
      rw [List.cons_append]
      refine ⟨h.1, ?_⟩
      exact ih b h.2 (fun c0 hc0 => hl c0 (by rw [List.getLast?_cons_cons]; exact hc0))

/-- One chunker step preserves the window-length bookkeeping, the chunk
chain, and the extension of the window over the last chunk. -/
theorem chunkStep_chain (maxSeqLen sNum sDen : Nat) (tokLen : String → Nat)
    (st : ChunkState) (row : ChunkRow)
    (hw : st.wordsInExample = st.wordsWithLabels.length)
    (hch : chunkChain sNum sDen (st.chunks.map Prod.snd))
    (hbuf : bufExtends sNum sDen st) :
    (chunkStep maxSeqLen sNum sDen tokLen st row).wordsInExample =
        (chunkStep maxSeqLen sNum sDen tokLen st row).wordsWithLabels.length ∧
      chunkChain sNum sDen
        ((chunkStep maxSeqLen sNum sDen tokLen st row).chunks.map Prod.snd) ∧
      bufExtends sNum sDen (chunkStep maxSeqLen sNum sDen tokLen st row) := by
  rw [chunkStep]
  by_cases hc : (maxSeqLen : Int) - 1 ≤ st.tokenizedLen + ((tokLen row.word : Nat) : Int)
  · rw [if_pos hc]
    refine ⟨by simp [List.length_drop, hw], ?_, ?_⟩
    · simp only [List.map_append, List.map_cons, List.map_nil]
      apply chunkChain_append sNum sDen _ _ hch
      intro c0 hc0
      rcases hbuf with hnil | ⟨cl, r, hcl, hext⟩
      · rw [hnil] at hc0
        simp at hc0
      · rw [List.getLast?_map, hcl] at hc0
        have hc0s : cl.2 = c0 := Option.some.inj hc0
        exact ⟨r, by rw [← hc0s]; exact hext⟩
    · right
      refine ⟨(st.chunkId, st.wordsWithLabels), [row], ?_, ?_⟩
      · simp
      · rw [hw]
  · rw [if_neg hc]
    refine ⟨by simp [hw], hch, ?_⟩
    rcases hbuf with hnil | ⟨cl, r, hcl, hext⟩
    · exact Or.inl hnil
    · exact Or.inr ⟨cl, r ++ [row], hcl, by rw [hext, List.append_assoc]⟩

/-- The fold over a sentence preserves the chain bookkeeping. -/
theorem foldl_chunkStep_chain (maxSeqLen sNum sDen : Nat) (tokLen : String → Nat) :
    ∀ (rows : List ChunkRow) (st : ChunkState),
      st.wordsInExample = st.wordsWithLabels.length →
      chunkChain sNum sDen (st.chunks.map Prod.snd) →
      bufExtends sNum sDen st →
      ((rows.foldl (chunkStep maxSeqLen sNum sDen tokLen) st).wordsInExample =
          (rows.foldl (chunkStep maxSeqLen sNum sDen tokLen) st).wordsWithLabels.length ∧
        chunkChain sNum sDen
          ((rows.foldl (chunkStep maxSeqLen sNum sDen tokLen) st).chunks.map Prod.snd) ∧
        bufExtends sNum sDen (rows.foldl (chunkStep maxSeqLen sNum sDen tokLen) st)) := by
  intro rows
  induction rows with
  | nil => intro st h1 h2 h3; exact ⟨h1, h2, h3⟩
  | cons row rows ih =>
    intro st h1 h2 h3
    obtain ⟨g1, g2, g3⟩ := chunkStep_chain maxSeqLen sNum sDen tokLen st row h1 h2 h3
    exact ih _ g1 g2 g3

/-- A chunk chain yields the shared-rows property: each window's first
`length - offset` rows equal the previous window's rows from `offset`. -/
theorem chunkChain_share (sNum sDen : Nat) :
    ∀ (cs : List (List ChunkRow)), chunkChain sNum sDen cs →
      consecutiveShare sNum sDen cs := by
  intro cs
  induction cs with
  | nil => intro _; trivial
  | cons c cs ih =>
    cases cs with
    | nil => intro _; trivial
    | cons d rest =>
      intro h
      obtain ⟨⟨r, hr⟩, htail⟩ := h
      refine ⟨?_, ih htail⟩
      rw [hr]
      have hlen : c.length - chunkOffset sNum sDen c.length =
          (c.drop (chunkOffset sNum sDen c.length)).length := by
        rw [List.length_drop]
      rw [hlen, List.take_left]

/-- C3 amended: for any stride below 1.0, each pair of consecutive
chunks of a sentence shares exactly `windowSize - floor(windowSize * s)`
rows, namely the suffix of the flushed window from index
`floor(windowSize * s)`, which reappears as the next chunk's leading
rows.  (The claim's count `floor(windowSize * s)` is the number of
discarded rows, not the shared ones.) -/
theorem c3_stride_overlap (maxSeqLen sNum sDen : Nat) (tokLen : String → Nat)
    (rows : List ChunkRow) (hden : 0 < sDen) (hlt : sNum < sDen) :
    consecutiveShare sNum sDen
      ((splitLongExample maxSeqLen sNum sDen tokLen rows).map Prod.snd) := by
  apply chunkChain_share
  have h0 := foldl_chunkStep_chain maxSeqLen sNum sDen tokLen rows initChunkState
    rfl (by trivial) (Or.inl rfl)
  obtain ⟨g1, g2, g3⟩ := h0
  rw [splitLongExample]
  by_cases hfin :
      0 ≤ (rows.foldl (chunkStep maxSeqLen sNum sDen tokLen) initChunkState).tokenizedLen
  · rw [if_pos hfin]
    simp only [List.map_append, List.map_cons, List.map_nil]
    apply chunkChain_append sNum sDen _ _ g2
    intro c0 hc0
    rcases g3 with hnil | ⟨cl, r, hcl, hext⟩
    · rw [hnil] at hc0
      simp at hc0
    · rw [List.getLast?_map, hcl] at hc0
      have hc0s : cl.2 = c0 := Option.some.inj hc0
      exact ⟨r, by rw [← hc0s]; exact hext⟩
  · rw [if_neg hfin]
    exact g2

/-- Witness for C3 amended: a concrete flushing instance (four
one-subword words, budget 3, stride one half) satisfies the stride
hypotheses and the shared-suffix property. -/
theorem c3_stride_overlap_witness :
    (0 < 2 ∧ 1 < 2) ∧
      consecutiveShare 1 2 ((splitLongExample 3 1 2 tokLenOne rows4).map Prod.snd) :=
  ⟨⟨by decide, by decide⟩,
    c3_stride_overlap 3 1 2 tokLenOne rows4 (by decide) (by decide)⟩

set_option maxHeartbeats 1600000 in
/-- Counterexample to C3 as stated: in the hand-computed instance the
flushed windows have 3 rows (not about 4), and consecutive chunks share
2 rows, while `floor(windowSize * s) = floor(3 * 0.5) = 1`; the leading
1 row of the second chunk does not equal the trailing 1 row of the
first, so the shared count is not `floor(windowSize * s)`. -/
theorem c3_counterexample :
    ((splitLongExample 5 1 2 tokLenOne rows10).map Prod.snd).length = 8 ∧
    ((splitLongExample 5 1 2 tokLenOne rows10).map Prod.snd).take 2 =
      [[⟨"w0", "B", "0"⟩, ⟨"w1", "B", "0"⟩, ⟨"w2", "B", "0"⟩],
       [⟨"w1", "B", "0"⟩, ⟨"w2", "B", "0"⟩, ⟨"w3", "B", "0"⟩]] ∧
    chunkOffset 1 2 3 = 1 ∧
    [ChunkRow.mk "w1" "B" "0", ⟨"w2", "B", "0"⟩, ⟨"w3", "B", "0"⟩].take 1 ≠
      [ChunkRow.mk "w0" "B" "0", ⟨"w1", "B", "0"⟩, ⟨"w2", "B", "0"⟩].drop (3 - 1) ∧
    [ChunkRow.mk "w1" "B" "0", ⟨"w2", "B", "0"⟩, ⟨"w3", "B", "0"⟩].take 2 =
      [ChunkRow.mk "w0" "B" "0", ⟨"w1", "B", "0"⟩, ⟨"w2", "B", "0"⟩].drop 1 := by
  refine ⟨by decide, by decide, by decide, by decide, by decide⟩

/-! ## End-to-end converter facts (C6) -/

/-- Counterexample to C6: for the three-token example document the
normalized expected text is not the claimed dog runs . home; the
expected-text normalization deletes the period instead of making it a
separate token. -/
theorem c6_counterexample :
    (loadJson docC6).2 ≠ "dog runs . home".data := by
  decide

/-- C6 amended: the text builder produces intact dog runs. Home with a
trailing space, the normalized input text is dog runs home, and the
normalized expected text is dog runs home as well: the period is
removed entirely by the expected-text substitutions (keeping the two
token sequences aligned), and does not become its own token. -/
theorem c6_three_token_example :
    buildTexts docC6 =
      ("dog runs Home".data, "dog runs Home".data, "dog runs. Home ".data) ∧
    loadJson docC6 = ("dog runs home".data, "dog runs home".data) := by
  refine ⟨by decide, by decide⟩

/-! ## Mismatch handling (C4) -/

/-- Counterexample to C4: the Corpus Loader does not skip a document
whose normalized input and expected texts have different token counts;
`_validate_equal_len` is never invoked by `_load_json`, and
`_write_output` writes one line pair per routed document
unconditionally.  The one-token document with word containing the
ellipsis glyph normalizes to a one-token input text and a two-token
expected text, yet both output lines are written. -/
theorem c4_counterexample :
    (splitOnSpace (loadJson docMismatch).1).length = 1 ∧
    (splitOnSpace (loadJson docMismatch).2).length = 2 ∧
    (writeOutput [("x1".data, docMismatch)]).1 = ["x1\ta…b".data] ∧
    (writeOutput [("x1".data, docMismatch)]).2 = ["a b".data] := by
  refine ⟨by decide, by decide, by decide, by decide⟩

/-- C4 amended: the Label Aligner part of the claim holds: a line pair
whose whitespace-split token counts differ contributes no CONLL lines
and processing continues with the remaining records.  The Corpus Loader
part does not: `_write_output` performs no token-count validation and
writes one line to each output file for every routed document. -/
theorem c4_mismatch_handling :
    (∀ (pre post : List (List Char × List Char)) (bad : List Char × List Char),
      (splitOnSpace bad.1).length ≠ (splitOnSpace bad.2).length →
      convertRecords (pre ++ bad :: post) = convertRecords (pre ++ post) ∧
      perRecord bad = []) ∧
    (∀ docs : List (List Char × List WordData),
      (writeOutput docs).1.length = docs.length ∧
      (writeOutput docs).2.length = docs.length) := by
  constructor
  · intro pre post bad h
    have hbad : perRecord bad = [] := by
      rw [perRecord, if_neg h]
    refine ⟨?_, hbad⟩
    rw [convertRecords, convertRecords]
    simp [hbad]
  · intro docs
    exact ⟨by simp [writeOutput], by simp [writeOutput]⟩

/-- Witness for C4 amended: a concrete mismatched record between two
good records is skipped while both neighbours are still converted. -/
theorem c4_mismatch_handling_witness :
    ((splitOnSpace "a b".data).length ≠ (splitOnSpace "a".data).length) ∧
      convertRecords ([("dog cat".data, "dog. cat".data)] ++
          ("a b".data, "a".data) :: [("x".data, "x".data)]) =
        convertRecords ([("dog cat".data, "dog. cat".data)] ++ [("x".data, "x".data)]) :=
  ⟨by decide,
    (c4_mismatch_handling.1 [("dog cat".data, "dog. cat".data)]
      [("x".data, "x".data)] ("a b".data, "a".data) (by decide)).1⟩

/-! ## Normalization lemmas for the converter comparison (C5) -/

/-- Unfolding lemma for `collapseSpaces` on a cons cell. -/
theorem collapseSpaces_cons (c : Char) (l : List Char) :
    collapseSpaces (c :: l) =
      if c = ' ' ∧ l.head? = some ' ' then collapseSpaces l
      else c :: collapseSpaces l := by
  simp only [collapseSpaces]

/-- Collapsing space runs never changes the first character. -/
theorem head_collapseSpaces : ∀ l : List Char, (collapseSpaces l).head? = l.head? := by
  intro l
  induction l with
  | nil => rfl
  | cons c rest ih =>
    rw [collapseSpaces_cons]
    by_cases h : c = ' ' ∧ rest.head? = some ' '
    · rw [if_pos h, ih, h.2]
      simp [h.1]
    · rw [if_neg h]
      rfl

/-- Collapsing is a congruence for prepending: lists with equal collapse
stay equal after a common front part. -/
theorem collapseSpaces_append_congr : ∀ (a l l2 : List Char),
    collapseSpaces l = collapseSpaces l2 →
    collapseSpaces (a ++ l) = collapseSpaces (a ++ l2) := by
  intro a
  induction a with
  | nil => intro l l2 h; exact h
  | cons x a ih =>
    intro l l2 h
    have hh : (a ++ l).head? = (a ++ l2).head? := by
      cases a with
      | nil =>
        simp only [List.nil_append]
        rw [← head_collapseSpaces l, ← head_collapseSpaces l2, h]
      | cons y a2 => rfl
    rw [List.cons_append, List.cons_append, collapseSpaces_cons, collapseSpaces_cons, hh]
    split_ifs with hc
    · exact ih l l2 h
    · rw [ih l l2 h]

/-- A run of spaces in front of a space collapses away. -/
theorem collapse_replicate : ∀ (k : Nat) (b : List Char),
    collapseSpaces (List.replicate k ' ' ++ ' ' :: b) = collapseSpaces (' ' :: b) := by
  intro k
  induction k with
  | zero => intro b; rfl
  | succ k ih =>
    intro b
    have hh : (List.replicate k ' ' ++ ' ' :: b).head? = some ' ' := by
      cases k <;> rfl
    rw [List.replicate_succ, List.cons_append, collapseSpaces_cons, if_pos ⟨rfl, hh⟩]
    exact ih b

/-- All-space filler in front of a space collapses away, in any
context. -/
theorem collapse_extra_spaces (a extra b : List Char) (hx : ∀ c ∈ extra, c = ' ') :
    collapseSpaces (a ++ (extra ++ ' ' :: b)) = collapseSpaces (a ++ ' ' :: b) := by
  have hrep : extra = List.replicate extra.length ' ' := List.eq_replicate_of_mem hx
  calc collapseSpaces (a ++ (extra ++ ' ' :: b))
      = collapseSpaces (a ++ (List.replicate extra.length ' ' ++ ' ' :: b)) := by
        rw [← hrep]
    _ = collapseSpaces (a ++ ' ' :: b) :=
        collapseSpaces_append_congr a _ _ (collapse_replicate extra.length b)

/-- Collapsing only drops characters. -/
theorem mem_collapseSpaces : ∀ (l : List Char) (c : Char), c ∈ collapseSpaces l → c ∈ l := by
  intro l
  induction l with
  | nil => intro c h; simpa [collapseSpaces] using h
  | cons x rest ih =>
    intro c h
    rw [collapseSpaces_cons] at h
    by_cases hc : x = ' ' ∧ rest.head? = some ' '
    · rw [if_pos hc] at h
      exact List.mem_cons_of_mem x (ih c h)
    · rw [if_neg hc] at h
      rcases List.mem_cons.mp h with rfl | h2
      · exact List.mem_cons_self _ _
      · exact List.mem_cons_of_mem x (ih c h2)

/-- Characters of the glued-punctuation class are also in the deletion
class. -/
theorem gluePunct_sub_expPunct : ∀ c : Char, c ∈ gluePunct → c ∈ expPunct := by
  intro c hc
  simp only [gluePunct, List.mem_cons, List.not_mem_nil, or_false] at hc
  rcases hc with rfl | rfl | rfl | rfl | rfl | rfl <;> decide

/-- The glued-punctuation substitution is invisible under the final
punctuation-to-space map: both turn the matched character into a
space. -/
theorem glueSub_map_expSpace : ∀ l : List Char,
    (glueSub l).map expSpace = l.map expSpace := by
  have key : ∀ (n : Nat) (l : List Char), l.length ≤ n →
      (glueSub l).map expSpace = l.map expSpace := by
    intro n
    induction n with
    | zero =>
      intro l hl
      have hnil : l = [] := List.eq_nil_of_length_eq_zero (Nat.le_zero.mp hl)
      subst hnil
      rfl
    | succ n ih =>
      intro l hl
      cases l with
      | nil => rfl
      | cons c l2 =>
        cases l2 with
        | nil => rfl
        | cons d rest =>
          simp only [glueSub]
          by_cases hc : c ∈ gluePunct ∧ d ≠ ' '
          · rw [if_pos hc]
            simp only [List.map_cons]
            rw [ih rest (by simp only [List.length_cons] at hl ⊢; omega)]
            have h1 : expSpace ' ' = ' ' := by decide
            have h2 : expSpace c = ' ' := by
              have hce : c ∈ expPunct := gluePunct_sub_expPunct c hc.1
              simp [expSpace, hce]
            rw [h1, h2]
          · rw [if_neg hc]
            simp only [List.map_cons]
            rw [ih (d :: rest) (by simp only [List.length_cons] at hl ⊢; omega)]
            rfl
  intro l
  exact key l.length l le_rfl

/-- Two leading spaces collapse to the collapse of one. -/
theorem collapse_two_spaces (b : List Char) :
    collapseSpaces (' ' :: ' ' :: b) = collapseSpaces (' ' :: b) := by
  rw [collapseSpaces_cons, if_pos ⟨rfl, rfl⟩]

/-- The ellipsis protection is invisible under the final
punctuation-to-space map followed by space collapsing: three dots map
to three spaces, the glyph to one. -/
theorem collapse_subEllipsis_map : ∀ l : List Char,
    collapseSpaces ((subEllipsis l).map expSpace) = collapseSpaces (l.map expSpace) := by
  have key : ∀ (n : Nat) (l : List Char), l.length ≤ n →
      collapseSpaces ((subEllipsis l).map expSpace) = collapseSpaces (l.map expSpace) := by
    intro n
    induction n with
    | zero =>
      intro l hl
      have hnil : l = [] := List.eq_nil_of_length_eq_zero (Nat.le_zero.mp hl)
      subst hnil
      rfl
    | succ n ih =>
      intro l hl
      cases l with
      | nil => rfl
      | cons c l2 =>
        cases l2 with
        | nil => rfl
        | cons d l3 =>
          cases l3 with
          | nil => rfl
          | cons e rest =>
            simp only [subEllipsis]
            by_cases hd : c = '.' ∧ d = '.' ∧ e = '.'
            · rw [if_pos hd]
              obtain ⟨rfl, rfl, rfl⟩ := hd
              simp only [List.map_cons]
              have e1 : expSpace '…' = ' ' := by decide
              have e2 : expSpace '.' = ' ' := by decide
              rw [e1, e2]
              rw [collapse_two_spaces, collapse_two_spaces]
              exact collapseSpaces_append_congr [' '] _ _
                (ih rest (by simp only [List.length_cons] at hl ⊢; omega))
            · rw [if_neg hd]
              simp only [List.map_cons]
              exact collapseSpaces_append_congr [expSpace c] _ _
                (ih (d :: e :: rest) (by simp only [List.length_cons] at hl ⊢; omega))
  intro l
  exact key l.length l le_rfl

/-- Restoring the glyph is the identity on glyph-free text. -/
theorem restoreEllipsis_of_not_mem : ∀ l : List Char, '…' ∉ l → restoreEllipsis l = l := by
  intro l
  induction l with
  | nil => intro _; rfl
  | cons c rest ih =>
    intro h
    simp only [restoreEllipsis]
    rw [if_neg (by intro hc; subst hc; exact h (List.mem_cons_self _ _))]
    rw [ih (fun hm => h (List.mem_cons_of_mem c hm))]

/-- The punctuation-to-space map never produces the glyph. -/
theorem expSpace_ne_ellipsis (c : Char) : expSpace c ≠ '…' := by
  by_cases h : c ∈ expPunct
  · rw [expSpace, if_pos h]
    decide
  · rw [expSpace, if_neg h]
    intro hc
    rw [hc] at h
    exact h (by decide)

/-- The expected-text normalization, written as one character map
followed by space collapsing and stripping: the ellipsis protection,
the glued-punctuation substitution, and the glyph restoration are all
absorbed. -/
theorem normalizeTextExp_eq (l : List Char) :
    normalizeTextExp l =
      stripSpaces (collapseSpaces (l.map (fun c => expSpace (Char.toLower c)))) := by
  rw [normalizeTextExp, glueSub_map_expSpace, collapse_subEllipsis_map]
  rw [restoreEllipsis_of_not_mem]
  · rw [List.map_map]
    rfl
  · intro hm
    obtain ⟨c, _, hc2⟩ := List.mem_map.mp (mem_collapseSpaces _ _ hm)
    exact expSpace_ne_ellipsis c hc2

/-- One `_build_texts` iteration appends the per-token segments. -/
theorem buildTextsStep_eq (acc : List Char × List Char × List Char) (wd : WordData) :
    buildTextsStep acc wd =
      (acc.1 ++ segIn wd, acc.2.1 ++ segExpJ wd, acc.2.2 ++ segIntact wd) := by
  simp only [buildTextsStep, segIn, segExpJ, segIntact, sepSeg]
  split_ifs <;> simp [List.append_assoc]

/-- One `parse_json2` iteration appends the per-token segments. -/
theorem buildTextsStep2_eq (acc : List Char × List Char × List Char) (wd : WordData) :
    buildTextsStep2 acc wd =
      (acc.1 ++ segIn wd, acc.2.1 ++ segExpP wd, acc.2.2 ++ segIntact wd) := by
  simp only [buildTextsStep2, segIn, segExpP, segIntact, sepSeg]
  split_ifs <;> simp [List.append_assoc]

/-- The `_build_texts` fold is segment concatenation. -/
theorem buildTexts_foldl_eq : ∀ (ws : List WordData) (acc : List Char × List Char × List Char),
    ws.foldl buildTextsStep acc =
      (acc.1 ++ (ws.map segIn).flatten, acc.2.1 ++ (ws.map segExpJ).flatten,
       acc.2.2 ++ (ws.map segIntact).flatten) := by
  intro ws
  induction ws with
  | nil => intro acc; simp
  | cons wd ws ih =>
    intro acc
    rw [List.foldl_cons, buildTextsStep_eq, ih]
    simp [List.append_assoc]

/-- The `parse_json2` fold is segment concatenation. -/
theorem buildTexts2_foldl_eq : ∀ (ws : List WordData) (acc : List Char × List Char × List Char),
    ws.foldl buildTextsStep2 acc =
      (acc.1 ++ (ws.map segIn).flatten, acc.2.1 ++ (ws.map segExpP).flatten,
       acc.2.2 ++ (ws.map segIntact).flatten) := by
  intro ws
  induction ws with
  | nil => intro acc; simp
  | cons wd ws ih =>
    intro acc
    rw [List.foldl_cons, buildTextsStep2_eq, ih]
    simp [List.append_assoc]

/-- Segment form of `JsonToTsvConverter._build_texts`. -/
theorem buildTexts_eq (ws : List WordData) :
    buildTexts ws =
      ((ws.map segIn).flatten, (ws.map segExpJ).flatten, (ws.map segIntact).flatten) := by
  rw [buildTexts, buildTexts_foldl_eq]
  rfl

/-- Segment form of the `parse_json2.py` text builder. -/
theorem buildTexts2_eq (ws : List WordData) :
    buildTexts2 ws =
      ((ws.map segIn).flatten, (ws.map segExpP).flatten, (ws.map segIntact).flatten) := by
  rw [buildTexts2, buildTexts2_foldl_eq]
  rfl

/-- On a token with empty punctuation the two expected-text segments
agree. -/
theorem segExpJ_eq_segExpP_of_nil (wd : WordData) (h : wd.punctuation = []) :
    segExpJ wd = segExpP wd := by
  simp [segExpJ, segExpP, h]

/-- On an excluded (all non-word) token the two expected-text segments
agree. -/
theorem segExpJ_eq_segExpP_of_excluded (wd : WordData)
    (h : ¬ matchesNonWord wd.word = false) : segExpJ wd = segExpP wd := by
  simp [segExpJ, segExpP, h]

/-- Every character of a label-alphabet punctuation value maps to a
space under lowering followed by the punctuation-to-space map. -/
theorem allowedPunct_map_space (p : List Char) (hp : p ∈ allowedPunct) :
    ∀ c ∈ p.map (fun c => expSpace (Char.toLower c)), c = ' ' := by
  simp only [allowedPunct, List.mem_cons, List.not_mem_nil, or_false] at hp
  rcases hp with rfl | rfl | rfl | rfl | rfl | rfl | rfl | rfl | rfl <;> decide

/-- Collapse absorbs an all-space filler between a word and its
separator space, then reduces to the tails. -/
theorem collapse_word_punct (w extra b b2 : List Char)
    (hx : ∀ c ∈ extra, c = ' ') (hb : collapseSpaces b = collapseSpaces b2) :
    collapseSpaces (w ++ extra ++ [' '] ++ b) = collapseSpaces (w ++ [' '] ++ b2) := by
  have h1 : w ++ extra ++ [' '] ++ b = w ++ (extra ++ ' ' :: b) := by
    simp [List.append_assoc]
  have h2 : w ++ [' '] ++ b2 = w ++ ' ' :: b2 := by
    simp [List.append_assoc]
  rw [h1, h2, collapse_extra_spaces w extra b hx]
  have h3 : w ++ ' ' :: b = (w ++ [' ']) ++ b := by simp
  have h4 : w ++ ' ' :: b2 = (w ++ [' ']) ++ b2 := by simp
  rw [h3, h4]
  exact collapseSpaces_append_congr _ _ _ hb

/-- Core of C5: on documents whose punctuation values stay in the label
alphabet, the two expected texts agree after the character map and the
space collapse. -/
theorem collapse_segExp_agree : ∀ ws : List WordData,
    (∀ wd ∈ ws, wd.punctuation ∈ allowedPunct) →
    collapseSpaces (((ws.map segExpJ).flatten).map (fun c => expSpace (Char.toLower c))) =
      collapseSpaces (((ws.map segExpP).flatten).map (fun c => expSpace (Char.toLower c))) := by
  intro ws
  induction ws with
  | nil => intro _; rfl
  | cons wd ws ih =>
    intro h
    have hwd := h wd (List.mem_cons_self _ _)
    have hih := ih (fun w hw => h w (List.mem_cons_of_mem _ hw))
    simp only [List.map_cons, List.flatten_cons, List.map_append]
    by_cases hpunct : wd.punctuation = []
    · rw [segExpJ_eq_segExpP_of_nil wd hpunct]
      exact collapseSpaces_append_congr _ _ _ hih
    · by_cases hinc : matchesNonWord wd.word = false
      · have hsep : sepSeg wd = [' '] := by
          simp [sepSeg, hpunct]
        by_cases hhy : wd.punctuation = ['-'] ∧ wd.space_after = false
        · have hJ : segExpJ wd = wd.word ++ ['-'] ++ [' '] := by
            rw [segExpJ, if_pos hinc, if_pos hhy, hsep]
          have hP : segExpP wd = wd.word ++ [' '] := by
            rw [segExpP, if_pos hinc, if_pos hhy, hsep]
          rw [hJ, hP]
          simp only [List.map_append]
          have m1 : (['-'].map (fun c => expSpace (Char.toLower c))) = [' '] := by decide
          have m2 : ([' '].map (fun c => expSpace (Char.toLower c))) = [' '] := by decide
          rw [m1, m2]
          exact collapse_word_punct _ [' '] _ _ (by decide) hih
        · have hJ : segExpJ wd = wd.word ++ [' '] := by
            rw [segExpJ, if_pos hinc, if_neg hhy, hsep, List.append_nil]
          have hP : segExpP wd = (wd.word ++ wd.punctuation) ++ [' '] := by
            rw [segExpP, if_pos hinc, if_neg hhy, hsep]
          rw [hJ, hP]
          simp only [List.map_append]
          have m2 : ([' '].map (fun c => expSpace (Char.toLower c))) = [' '] := by decide
          rw [m2]
          exact (collapse_word_punct _ _ _ _ (allowedPunct_map_space wd.punctuation hwd)
            hih.symm).symm
      · rw [segExpJ_eq_segExpP_of_excluded wd hinc]
        exact collapseSpaces_append_congr _ _ _ hih

/-- Counterexample to C5 as a universal statement: on the one-token
document with punctuation a double quote, the two converters disagree:
`json_converter.py` drops the quote from the expected text while
`parse_json2.py` keeps it. -/
theorem c5_counterexample : loadJson docQuote ≠ loadJson2 docQuote := by
  decide

/-- C5 amended: the two `_load_json` implementations always agree on
the input text; they agree on the whole `(input, expected)` pair for
every document whose punctuation fields are label-alphabet values (or
empty).  Outside that alphabet the expected texts can differ. -/
theorem c5_converters_agree (ws : List WordData) :
    (loadJson ws).1 = (loadJson2 ws).1 ∧
    ((∀ wd ∈ ws, wd.punctuation ∈ allowedPunct) → loadJson ws = loadJson2 ws) := by
  have hin : (buildTexts ws).1 = (buildTexts2 ws).1 := by
    rw [buildTexts_eq, buildTexts2_eq]
  have h1 : (loadJson ws).1 = (loadJson2 ws).1 := by
    dsimp only [loadJson, loadJson2]
    exact congrArg normalizeTextIn hin
  refine ⟨h1, fun h => ?_⟩
  have hexp : normalizeTextExp (buildTexts ws).2.1 = normalizeTextExp (buildTexts2 ws).2.1 := by
    rw [buildTexts_eq, buildTexts2_eq]
    dsimp only
    rw [normalizeTextExp_eq, normalizeTextExp_eq]
    exact congrArg stripSpaces (collapse_segExp_agree ws h)
  exact Prod.ext h1 hexp

/-- Witness for C5 amended: the three-token example document has
label-alphabet punctuation and both converters return the same pair on
it. -/
theorem c5_converters_agree_witness :
    (∀ wd ∈ docC6, wd.punctuation ∈ allowedPunct) ∧ loadJson docC6 = loadJson2 docC6 :=
  ⟨by decide, (c5_converters_agree docC6).2 (by decide)⟩

/-! ## Sentence-level label filtering (C10) -/

/-- C10: `NERTrainer.load_data` filters at sentence granularity: the
returned rows are exactly the rows of the input whose whole sentence
carries only alphabet labels, kept unchanged and in original order (a
sublist of the input); in particular every row whose sentence contains
at least one out-of-alphabet label is dropped, and every returned row
belongs to a fully valid sentence. -/
theorem c10_sentence_filter (rows : List DataRow) :
    loadDataFilter rows =
      rows.filter (fun r => ∀ r2 ∈ rows,
        r2.sentence_id = r.sentence_id → r2.label ∈ labelStrings) ∧
    (loadDataFilter rows).Sublist rows ∧
    (∀ r ∈ loadDataFilter rows, ∀ r2 ∈ rows,
      r2.sentence_id = r.sentence_id → r2.label ∈ labelStrings) := by
  have hmain : loadDataFilter rows =
      rows.filter (fun r => ∀ r2 ∈ rows,
        r2.sentence_id = r.sentence_id → r2.label ∈ labelStrings) := by
    rw [loadDataFilter]
    apply List.filter_congr
    intro r _
    simp only [decide_eq_decide]
    rw [sentencesToDelete]
    simp only [List.mem_map, List.mem_filter]
    constructor
    · intro h r2 hr2 hs
      by_contra hlab
      exact h ⟨r2, ⟨hr2, by simpa using hlab⟩, hs⟩
    · rintro h ⟨r2, ⟨hr2, hbad⟩, hs⟩
      exact (by simpa using hbad : r2.label ∉ labelStrings) (h r2 hr2 hs)
  refine ⟨hmain, ?_, ?_⟩
  · rw [loadDataFilter]
    exact List.filter_sublist rows
  · intro r hr
    rw [hmain] at hr
    have hmem := List.mem_filter.mp hr
    simpa using hmem.2

/-! ## Document routing (C8) -/

/-- Searching a path list for an exact stem returns the stem itself when
present. -/
theorem find?_eq_self (paths : List String) (n : String) :
    paths.find? (fun p => p = n) = if n ∈ paths then some n else none := by
  induction paths with
  | nil => rfl
  | cons p ps ih =>
    by_cases h : p = n
    · subst h
      simp [List.find?_cons]
    · have h2 : ¬ n = p := fun e => h e.symm
      simp [List.find?_cons, h, h2, ih]

/-- `_sort_paths` with exact stem matching is a filter of the manifest
by presence among the routed paths. -/
theorem sortPaths_eq (paths names : List String) :
    sortPaths paths names = names.filter (fun n => n ∈ paths) := by
  rw [sortPaths]
  induction names with
  | nil => rfl
  | cons n ns ih =>
    rw [List.filterMap_cons, find?_eq_self]
    by_cases h : n ∈ paths
    · rw [if_pos h]
      simp [h, ih]
    · rw [if_neg h]
      simp [h, ih]

/-- The routing fold partitions the candidates into three filters. -/
theorem routeFold_eq (trainNames testNames : List String) :
    ∀ (candidates : List String) (acc : List String × List String × List String),
      candidates.foldl (routeStep trainNames testNames) acc =
        (acc.1 ++ candidates.filter (fun c => c ∈ trainNames),
         acc.2.1 ++ candidates.filter (fun c => c ∉ trainNames ∧ c ∈ testNames),
         acc.2.2 ++ candidates.filter (fun c => c ∉ trainNames ∧ c ∉ testNames)) := by
  intro candidates
  induction candidates with
  | nil => intro acc; simp
  | cons c cs ih =>
    intro acc
    rw [List.foldl_cons, routeStep]
    by_cases h1 : c ∈ trainNames
    · rw [if_pos h1, ih]
      simp [h1, List.append_assoc]
    · by_cases h2 : c ∈ testNames
      · rw [if_neg h1, if_pos h2, ih]
        simp [h1, h2, List.append_assoc]
      · rw [if_neg h1, if_neg h2, ih]
        simp [h1, h2, List.append_assoc]

/-- The three complementary filters reassemble the candidate list up to
permutation. -/
theorem filter_three_perm (trainNames testNames : List String) :
    ∀ l : List String,
      (l.filter (fun c => c ∈ trainNames) ++
        l.filter (fun c => c ∉ trainNames ∧ c ∈ testNames) ++
        l.filter (fun c => c ∉ trainNames ∧ c ∉ testNames)).Perm l := by
  intro l
  induction l with
  | nil => simp
  | cons c cs ih =>
    simp only [List.filter_cons]
    by_cases h1 : c ∈ trainNames
    · have hq : ¬ (c ∉ trainNames ∧ c ∈ testNames) := fun hx => hx.1 h1
      have hr : ¬ (c ∉ trainNames ∧ c ∉ testNames) := fun hx => hx.1 h1
      rw [if_pos (show decide (c ∈ trainNames) = true by simp [h1]),
        if_neg (show ¬ decide (c ∉ trainNames ∧ c ∈ testNames) = true by simp [hq]),
        if_neg (show ¬ decide (c ∉ trainNames ∧ c ∉ testNames) = true by simp [hr])]
      exact ih.cons c
    · by_cases h2 : c ∈ testNames
      · have hq : c ∉ trainNames ∧ c ∈ testNames := ⟨h1, h2⟩
        have hr : ¬ (c ∉ trainNames ∧ c ∉ testNames) := fun hx => hx.2 h2
        rw [if_neg (show ¬ decide (c ∈ trainNames) = true by simp [h1]),
          if_pos (show decide (c ∉ trainNames ∧ c ∈ testNames) = true by simp [hq]),
          if_neg (show ¬ decide (c ∉ trainNames ∧ c ∉ testNames) = true by simp [hr])]
        exact (List.Perm.append_right _ List.perm_middle).trans (ih.cons c)
      · have hq : ¬ (c ∉ trainNames ∧ c ∈ testNames) := fun hx => h2 hx.2
        have hr : c ∉ trainNames ∧ c ∉ testNames := ⟨h1, h2⟩
        rw [if_neg (show ¬ decide (c ∈ trainNames) = true by simp [h1]),
          if_neg (show ¬ decide (c ∉ trainNames ∧ c ∈ testNames) = true by simp [hq]),
          if_pos (show decide (c ∉ trainNames ∧ c ∉ testNames) = true by simp [hr])]
        exact List.perm_middle.trans (ih.cons c)

/-- C8: document routing is a partition.  With duplicate-free manifests
and candidates and any permutation-producing shuffle: the train bucket
is the train manifest filtered to the present candidates, in manifest
order; the test bucket is the test manifest filtered to the present
candidates not claimed by the train manifest (train precedence); the
rest bucket is the fixed shuffle of the remaining candidates, hence the
same permutation of its members on every run over the same inputs; the
three buckets together are a permutation of the candidates, so every
candidate is placed exactly once; and bucket membership is exactly the
routing rule. -/
theorem c8_document_routing (shuffle : List String → List String)
    (trainNames testNames candidates : List String)
    (hshuffle : ∀ l : List String, (shuffle l).Perm l)
    (hc : candidates.Nodup) (ht : trainNames.Nodup) (hs : testNames.Nodup) :
    (routePaths shuffle trainNames testNames candidates).1 =
        trainNames.filter (fun n => n ∈ candidates) ∧
    (routePaths shuffle trainNames testNames candidates).2.1 =
        testNames.filter (fun n => n ∈ candidates ∧ n ∉ trainNames) ∧
    (routePaths shuffle trainNames testNames candidates).2.2 =
        shuffle (candidates.filter (fun c => c ∉ trainNames ∧ c ∉ testNames)) ∧
    ((routePaths shuffle trainNames testNames candidates).1 ++
        (routePaths shuffle trainNames testNames candidates).2.1 ++
        (routePaths shuffle trainNames testNames candidates).2.2).Perm candidates ∧
    (∀ c : String,
      (c ∈ (routePaths shuffle trainNames testNames candidates).1 ↔
        c ∈ candidates ∧ c ∈ trainNames) ∧
      (c ∈ (routePaths shuffle trainNames testNames candidates).2.1 ↔
        c ∈ candidates ∧ c ∉ trainNames ∧ c ∈ testNames) ∧
      (c ∈ (routePaths shuffle trainNames testNames candidates).2.2 ↔
        c ∈ candidates ∧ c ∉ trainNames ∧ c ∉ testNames)) := by
  have hout : routePaths shuffle trainNames testNames candidates =
      (sortPaths (candidates.filter (fun c => c ∈ trainNames)) trainNames,
       sortPaths (candidates.filter (fun c => c ∉ trainNames ∧ c ∈ testNames)) testNames,
       shuffle (candidates.filter (fun c => c ∉ trainNames ∧ c ∉ testNames))) := by
    rw [routePaths, routeFold_eq]
    simp
  have h1 : (routePaths shuffle trainNames testNames candidates).1 =
      trainNames.filter (fun n => n ∈ candidates) := by
    rw [hout]
    dsimp only
    rw [sortPaths_eq]
    apply List.filter_congr
    intro n hn
    simp [List.mem_filter, hn]
  have h2 : (routePaths shuffle trainNames testNames candidates).2.1 =
      testNames.filter (fun n => n ∈ candidates ∧ n ∉ trainNames) := by
    rw [hout]
    dsimp only
    rw [sortPaths_eq]
    apply List.filter_congr
    intro n hn
    simp [List.mem_filter, hn]
  have h3 : (routePaths shuffle trainNames testNames candidates).2.2 =
      shuffle (candidates.filter (fun c => c ∉ trainNames ∧ c ∉ testNames)) := by
    rw [hout]
  have htr : ((routePaths shuffle trainNames testNames candidates).1).Perm
      (candidates.filter (fun c => c ∈ trainNames)) := by
    rw [h1]
    refine (List.perm_ext_iff_of_nodup (ht.filter _) (hc.filter _)).mpr ?_
    intro a
    simp only [List.mem_filter, decide_eq_true_eq]
    tauto
  have hte : ((routePaths shuffle trainNames testNames candidates).2.1).Perm
      (candidates.filter (fun c => c ∉ trainNames ∧ c ∈ testNames)) := by
    rw [h2]
    refine (List.perm_ext_iff_of_nodup (hs.filter _) (hc.filter _)).mpr ?_
    intro a
    simp only [List.mem_filter, decide_eq_true_eq]
    tauto
  have hre : ((routePaths shuffle trainNames testNames candidates).2.2).Perm
      (candidates.filter (fun c => c ∉ trainNames ∧ c ∉ testNames)) := by
    rw [h3]
    exact hshuffle _
  have hperm : ((routePaths shuffle trainNames testNames candidates).1 ++
      (routePaths shuffle trainNames testNames candidates).2.1 ++
      (routePaths shuffle trainNames testNames candidates).2.2).Perm candidates :=
    (List.Perm.append (List.Perm.append htr hte) hre).trans
      (filter_three_perm trainNames testNames candidates)
  refine ⟨h1, h2, h3, hperm, fun c => ⟨?_, ?_, ?_⟩⟩
  · rw [h1]
    simp only [List.mem_filter, decide_eq_true_eq]
    tauto
  · rw [h2]
    simp only [List.mem_filter, decide_eq_true_eq]
    try tauto
  · rw [hre.mem_iff]
    simp only [List.mem_filter, decide_eq_true_eq]
    try tauto

/-- Witness for C8: a concrete routing instance with one train id, one
test id and one unmatched id; all hypotheses hold and the buckets
partition the candidates. -/
theorem c8_document_routing_witness :
    ((["s1", "x1", "t1"] : List String).Nodup ∧ (["t1"] : List String).Nodup ∧
      (["s1"] : List String).Nodup) ∧
    (routePaths shuffleId ["t1"] ["s1"] ["s1", "x1", "t1"]).1 =
        (["t1"] : List String).filter (fun n => n ∈ (["s1", "x1", "t1"] : List String)) ∧
    ((routePaths shuffleId ["t1"] ["s1"] ["s1", "x1", "t1"]).1 ++
        (routePaths shuffleId ["t1"] ["s1"] ["s1", "x1", "t1"]).2.1 ++
        (routePaths shuffleId ["t1"] ["s1"] ["s1", "x1", "t1"]).2.2).Perm
      ["s1", "x1", "t1"] :=
  ⟨⟨by decide, by decide, by decide⟩,
    (c8_document_routing shuffleId ["t1"] ["s1"] ["s1", "x1", "t1"]
      (fun l => List.Perm.refl l) (by decide) (by decide) (by decide)).1,
    (c8_document_routing shuffleId ["t1"] ["s1"] ["s1", "x1", "t1"]
      (fun l => List.Perm.refl l) (by decide) (by decide) (by decide)).2.2.2.1⟩

/-! ## Dataset splitting lemmas (C9) -/

/-- The accumulator characterization of the `unique()` fold. -/
theorem uniqueIds_spec : ∀ (l acc : List Nat), acc.Nodup →
    (l.foldl (fun acc x => if x ∈ acc then acc else acc ++ [x]) acc).Nodup ∧
    ∀ x, x ∈ l.foldl (fun acc x => if x ∈ acc then acc else acc ++ [x]) acc ↔
      (x ∈ acc ∨ x ∈ l) := by
  intro l
  induction l with
  | nil =>
    intro acc h
    exact ⟨h, fun x => by simp⟩
  | cons y ys ih =>
    intro acc h
    rw [List.foldl_cons]
    by_cases hy : y ∈ acc
    · rw [if_pos hy]
      obtain ⟨hn, hm⟩ := ih acc h
      refine ⟨hn, fun x => ?_⟩
      rw [hm x]
      simp only [List.mem_cons]
      constructor
      · rintro (h1 | h2)
        · exact Or.inl h1
        · exact Or.inr (Or.inr h2)
      · rintro (h1 | rfl | h2)
        · exact Or.inl h1
        · exact Or.inl hy
        · exact Or.inr h2
    · rw [if_neg hy]
      have hacc : (acc ++ [y]).Nodup := by
        simp [List.nodup_append, h, hy]
      obtain ⟨hn, hm⟩ := ih (acc ++ [y]) hacc
      refine ⟨hn, fun x => ?_⟩
      rw [hm x]
      simp only [List.mem_append, List.mem_singleton, List.mem_cons]
      tauto

/-- `unique()` returns duplicate-free ids. -/
theorem uniqueIds_nodup (l : List Nat) : (uniqueIds l).Nodup :=
  (uniqueIds_spec l [] List.nodup_nil).1

/-- `unique()` keeps exactly the ids of the column. -/
theorem mem_uniqueIds (l : List Nat) (x : Nat) : x ∈ uniqueIds l ↔ x ∈ l := by
  have := (uniqueIds_spec l [] List.nodup_nil).2 x
  simpa using this

/-- `round(n * 0.8)` never exceeds `n`. -/
theorem pyRound45_le (n : Nat) : pyRoundHalfEven (n * 4) 5 ≤ n := by
  rw [pyRoundHalfEven]
  split_ifs <;> omega

/-- `round(n * 0.5)` never exceeds `n`. -/
theorem pyRound12_le (n : Nat) : pyRoundHalfEven (n * 1) 2 ≤ n := by
  rw [pyRoundHalfEven]
  split_ifs <;> omega

/-- The prefix sampler satisfies the contract of `random.sample`. -/
theorem sampleTake_contract : SampleContract sampleTake := by
  intro l k hk
  refine ⟨?_, ?_, ?_⟩
  · simp only [sampleTake, List.length_take]
    omega
  · intro x hx
    exact List.mem_of_mem_take hx
  · intro h
    exact h.sublist (List.take_sublist k l)

/-- Sentence ids of a rows-with-id-in filter. -/
theorem mem_map_sid_filter_mem (data : List DataRow) (T : List Nat) (s : Nat) :
    s ∈ (data.filter (fun r => r.sentence_id ∈ T)).map (fun r => r.sentence_id) ↔
      (s ∈ data.map fun r => r.sentence_id) ∧ s ∈ T := by
  simp only [List.mem_map, List.mem_filter, decide_eq_true_eq]
  constructor
  · rintro ⟨r, ⟨hr, hp⟩, rfl⟩
    exact ⟨⟨r, hr, rfl⟩, hp⟩
  · rintro ⟨⟨r, hr, rfl⟩, hp⟩
    exact ⟨r, ⟨hr, hp⟩, rfl⟩

/-- Sentence ids of a rows-with-id-not-in filter. -/
theorem mem_map_sid_filter_not_mem (data : List DataRow) (T : List Nat) (s : Nat) :
    s ∈ (data.filter (fun r => r.sentence_id ∉ T)).map (fun r => r.sentence_id) ↔
      (s ∈ data.map fun r => r.sentence_id) ∧ s ∉ T := by
  simp only [List.mem_map, List.mem_filter, decide_eq_true_eq]
  constructor
  · rintro ⟨r, ⟨hr, hp⟩, rfl⟩
    exact ⟨⟨r, hr, rfl⟩, hp⟩
  · rintro ⟨⟨r, hr, rfl⟩, hp⟩
    exact ⟨r, ⟨hr, hp⟩, rfl⟩

/-- Duplicate-free lists with the same members have the same length. -/
theorem length_eq_of_nodup_mem_iff {l1 l2 : List Nat} (h1 : l1.Nodup) (h2 : l2.Nodup)
    (h : ∀ x, x ∈ l1 ↔ x ∈ l2) : l1.length = l2.length :=
  ((List.perm_ext_iff_of_nodup h1 h2).mpr h).length_eq

/-- A not-in filter and an in filter of a row list reassemble it up to
permutation. -/
theorem filter_mem_append_perm (T : List Nat) (data : List DataRow) :
    (data.filter (fun r => r.sentence_id ∈ T) ++
      data.filter (fun r => r.sentence_id ∉ T)).Perm data := by
  have hcongr : data.filter (fun r => r.sentence_id ∉ T) =
      data.filter (fun r => !(decide (r.sentence_id ∈ T))) :=
    List.filter_congr (fun x _ => by simp)
  rw [hcongr]
  exact List.filter_append_perm _ data

/-- An in-filter and a not-in filter of an id list split its length. -/
theorem length_filter_mem_add (T ids : List Nat) :
    (ids.filter (fun s => s ∈ T)).length + (ids.filter (fun s => s ∉ T)).length =
      ids.length := by
  have hcongr : ids.filter (fun s => s ∉ T) =
      ids.filter (fun s => !(decide (s ∈ T))) :=
    List.filter_congr (fun x _ => by simp)
  rw [hcongr, ← List.length_append]
  exact (List.filter_append_perm _ ids).length_eq

/-- One `_split_dataframe` stage: the two returned row lists reassemble
the input, their sentence-id sets are disjoint and cover the input ids,
the selected side has exactly `round(num_sentences * prop)` distinct
ids and the complement the remaining ones. -/
theorem splitDataframe_spec (sample : List Nat → Nat → List Nat)
    (hsample : SampleContract sample) (pNum pDen : Nat)
    (hle : ∀ n, pyRoundHalfEven (n * pNum) pDen ≤ n) (data : List DataRow) :
    ((splitDataframe sample pNum pDen data).1 ++
        (splitDataframe sample pNum pDen data).2).Perm data ∧
    (∀ s : Nat, ¬ (s ∈ (splitDataframe sample pNum pDen data).1.map (fun r => r.sentence_id) ∧
        s ∈ (splitDataframe sample pNum pDen data).2.map (fun r => r.sentence_id))) ∧
    (∀ s : Nat, s ∈ data.map (fun r => r.sentence_id) ↔
      (s ∈ (splitDataframe sample pNum pDen data).1.map (fun r => r.sentence_id) ∨
       s ∈ (splitDataframe sample pNum pDen data).2.map (fun r => r.sentence_id))) ∧
    (uniqueIds ((splitDataframe sample pNum pDen data).1.map (fun r => r.sentence_id))).length =
      pyRoundHalfEven ((uniqueIds (data.map (fun r => r.sentence_id))).length * pNum) pDen ∧
    (uniqueIds ((splitDataframe sample pNum pDen data).2.map (fun r => r.sentence_id))).length =
      (uniqueIds (data.map (fun r => r.sentence_id))).length -
        pyRoundHalfEven ((uniqueIds (data.map (fun r => r.sentence_id))).length * pNum) pDen := by
  have hrs1 : (splitDataframe sample pNum pDen data).1 =
      data.filter (fun r => r.sentence_id ∈
        sample (uniqueIds (data.map (fun r => r.sentence_id)))
          (pyRoundHalfEven ((uniqueIds (data.map (fun r => r.sentence_id))).length * pNum)
            pDen)) := rfl
  have hrs2 : (splitDataframe sample pNum pDen data).2 =
      data.filter (fun r => r.sentence_id ∉
        sample (uniqueIds (data.map (fun r => r.sentence_id)))
          (pyRoundHalfEven ((uniqueIds (data.map (fun r => r.sentence_id))).length * pNum)
            pDen)) := rfl
  rw [hrs1, hrs2]
  set ids := uniqueIds (data.map (fun r : DataRow => r.sentence_id)) with hids
  set k := pyRoundHalfEven (ids.length * pNum) pDen with hk
  set T := sample ids k with hT
  obtain ⟨hTlen, hTsub, hTnd⟩ := hsample ids k (hle ids.length)
  have hidsnd : ids.Nodup := uniqueIds_nodup _
  have hTnodup : T.Nodup := hTnd hidsnd
  refine ⟨filter_mem_append_perm T data, ?_, ?_, ?_, ?_⟩
  · intro s
    rw [mem_map_sid_filter_mem, mem_map_sid_filter_not_mem]
    tauto
  · intro s
    rw [mem_map_sid_filter_mem, mem_map_sid_filter_not_mem]
    by_cases hsT : s ∈ T <;> tauto
  · have hmem : ∀ x, x ∈ uniqueIds ((data.filter
        (fun r => r.sentence_id ∈ T)).map (fun r => r.sentence_id)) ↔ x ∈ T := by
      intro x
      rw [mem_uniqueIds, mem_map_sid_filter_mem]
      constructor
      · exact fun hx => hx.2
      · intro hx
        exact ⟨(mem_uniqueIds _ x).mp (hTsub x hx), hx⟩
    rw [length_eq_of_nodup_mem_iff (uniqueIds_nodup _) hTnodup hmem, hTlen]
  · have h5 : (uniqueIds ((data.filter
        (fun r => r.sentence_id ∉ T)).map (fun r => r.sentence_id))).length =
        (ids.filter (fun s => s ∉ T)).length := by
      apply length_eq_of_nodup_mem_iff (uniqueIds_nodup _) (hidsnd.filter _)
      intro x
      rw [mem_uniqueIds, mem_map_sid_filter_not_mem, List.mem_filter]
      rw [← mem_uniqueIds (data.map (fun r => r.sentence_id)) x]
      simp
    have h6 : (ids.filter (fun s => s ∈ T)).length = k := by
      have hmem : ∀ x, x ∈ ids.filter (fun s => s ∈ T) ↔ x ∈ T := by
        intro x
        rw [List.mem_filter]
        simp only [decide_eq_true_eq]
        exact ⟨fun hx => hx.2, fun hx => ⟨hTsub x hx, hx⟩⟩
      rw [length_eq_of_nodup_mem_iff (hidsnd.filter _) hTnodup hmem, hTlen]
    have h7 := length_filter_mem_add T ids
    omega

/-- C9: the two-stage split partitions the rows and the sentence ids:
train, dev and test reassemble the dataset up to permutation, their
sentence-id sets are pairwise disjoint and cover the dataset ids, the
first stage selects exactly `round(num_sentences * 0.8)` sentence ids
and the second `round(remaining * 0.5)`; the model threads the seeded
sampler as a fixed function, so the split is the same on every run over
the same input. -/
theorem c9_two_stage_split (sample : List Nat → Nat → List Nat)
    (hsample : SampleContract sample) (data : List DataRow) :
    ((runSplit sample data).1 ++ (runSplit sample data).2.1 ++
        (runSplit sample data).2.2).Perm data ∧
    (∀ s : Nat,
      ¬ (s ∈ (runSplit sample data).1.map (fun r => r.sentence_id) ∧
         s ∈ (runSplit sample data).2.1.map (fun r => r.sentence_id)) ∧
      ¬ (s ∈ (runSplit sample data).1.map (fun r => r.sentence_id) ∧
         s ∈ (runSplit sample data).2.2.map (fun r => r.sentence_id)) ∧
      ¬ (s ∈ (runSplit sample data).2.1.map (fun r => r.sentence_id) ∧
         s ∈ (runSplit sample data).2.2.map (fun r => r.sentence_id))) ∧
    (∀ s : Nat, s ∈ data.map (fun r => r.sentence_id) ↔
      (s ∈ (runSplit sample data).1.map (fun r => r.sentence_id) ∨
       s ∈ (runSplit sample data).2.1.map (fun r => r.sentence_id) ∨
       s ∈ (runSplit sample data).2.2.map (fun r => r.sentence_id))) ∧
    (uniqueIds ((runSplit sample data).1.map (fun r => r.sentence_id))).length =
      pyRoundHalfEven ((uniqueIds (data.map (fun r => r.sentence_id))).length * 4) 5 ∧
    (uniqueIds ((runSplit sample data).2.1.map (fun r => r.sentence_id))).length =
      pyRoundHalfEven (((uniqueIds (data.map (fun r => r.sentence_id))).length -
        pyRoundHalfEven ((uniqueIds (data.map (fun r => r.sentence_id))).length * 4) 5) * 1)
        2 := by
  obtain ⟨p1, d1, c1, s1a, s1b⟩ :=
    splitDataframe_spec sample hsample 4 5 pyRound45_le data
  obtain ⟨p2, d2, c2, s2a, s2b⟩ :=
    splitDataframe_spec sample hsample 1 2 pyRound12_le (splitDataframe sample 4 5 data).2
  have hr1 : (runSplit sample data).1 = (splitDataframe sample 4 5 data).1 := rfl
  have hr2 : (runSplit sample data).2.1 =
      (splitDataframe sample 1 2 (splitDataframe sample 4 5 data).2).1 := rfl
  have hr3 : (runSplit sample data).2.2 =
      (splitDataframe sample 1 2 (splitDataframe sample 4 5 data).2).2 := rfl
  rw [hr1, hr2, hr3]
  refine ⟨?_, ?_, ?_, ?_, ?_⟩
  · rw [List.append_assoc]
    exact (List.Perm.append_left _ p2).trans p1
  · intro s
    have hdev_sub := (c2 s).mpr
    refine ⟨?_, ?_, d2 s⟩
    · rintro ⟨hs1, hs2⟩
      exact d1 s ⟨hs1, hdev_sub (Or.inl hs2)⟩
    · rintro ⟨hs1, hs2⟩
      exact d1 s ⟨hs1, hdev_sub (Or.inr hs2)⟩
  · intro s
    rw [c1 s, c2 s]
  · exact s1a
  · rw [s2a, s1b]

/-- Witness for C9: the prefix sampler satisfies the sample contract,
and on the concrete four-row dataset the split reassembles the rows. -/
theorem c9_two_stage_split_witness :
    SampleContract sampleTake ∧
    ((runSplit sampleTake dataC9).1 ++ (runSplit sampleTake dataC9).2.1 ++
        (runSplit sampleTake dataC9).2.2).Perm dataC9 :=
  ⟨sampleTake_contract, (c9_two_stage_split sampleTake sampleTake_contract dataC9).1⟩

end PunctRestore
